import Mathlib

/-!
# Verification of the class-name composition utility (`cn`) and its wrappers

The repository's only piece of logic is `cn(...inputs) = twMerge(clsx(inputs))`
(src/unnamed/part_000): it flattens clsx-style class inputs into a space-squashed
token sequence and resolves conflicting utility classes by a last-write-wins rule
scoped to each utility's group.  The bodies of `clsx` and `twMerge` are external
to the repository, so the composition pipeline below is modelled from the spec's
ClassComposer contract (spec.md §3–§4.1): flatten depth-first, emit mapping keys
iff truthy, deduplicate literal repeats keeping the last occurrence, resolve
same-group conflicts keeping the last occurrence, join with single spaces.

Tokens are manipulated as `String`s whose character lists are handled explicitly,
so every definition is executable and concrete runs reduce by `decide`.
-/

set_option autoImplicit false

namespace ClassComposer

/-! ## Decimal rendering of numeric inputs -/

/-- Fuel-driven decimal digits of a natural number (most significant first).
Structural in the fuel so that the kernel can evaluate it. -/
def natDecAux : Nat → Nat → List Char
  | 0, _ => []
  | fuel + 1, n =>
    if n < 10 then [Nat.digitChar n]
    else natDecAux fuel (n / 10) ++ [Nat.digitChar (n % 10)]

/-- Decimal digit characters of a natural number. -/
def natDec (n : Nat) : List Char :=
  natDecAux (n + 1) n

/-- Modelled from the spec: the decimal string form of a numeric input,
restricted to the integer fragment of the numeric domain.  The program's
numeric inputs are IEEE-754 doubles rendered by JavaScript's float-to-string
conversion; non-integer finite numbers are outside this model, which covers
only integers and their plain decimal rendering. -/
def intDecimal : Int → String
  | .ofNat n => String.mk (natDec n)
  | .negSucc n => String.mk ('-' :: natDec (n + 1))

/-! ## Tokenizing space-separated class strings -/

/-- Split a character list on spaces, dropping empty fragments.  `acc` holds the
current (reversed) in-progress token. -/
def splitChAux : List Char → List Char → List (List Char)
  | [], acc => if acc = [] then [] else [acc.reverse]
  | c :: cs, acc =>
    if c = ' ' then
      if acc = [] then splitChAux cs [] else acc.reverse :: splitChAux cs []
    else splitChAux cs (c :: acc)

/-- Split a character list into its space-separated tokens. -/
def splitCh (cs : List Char) : List (List Char) :=
  splitChAux cs []

/-- Tokens of a space-separated class string. -/
def splitTokens (s : String) : List String :=
  (splitCh s.data).map (fun cs => String.mk cs)

/-- Join tokens with single spaces (spec.md §4.1 step 4). -/
def joinSpace : List String → String
  | [] => ""
  | [t] => t
  | t :: u :: ts => t ++ " " ++ joinSpace (u :: ts)

/-! ## Variant prefixes and utility groups -/

/-- Split a token's characters into its variant part (everything up to and
including the last colon that is not inside square brackets) and its base part.
`seg` is the reversed current segment, `var` the reversed confirmed variant. -/
def splitVarAux : List Char → Nat → List Char → List Char → List Char × List Char
  | [], _, seg, var => (var.reverse, seg.reverse)
  | c :: cs, d, seg, var =>
    if c = ':' ∧ d = 0 then splitVarAux cs d [] (c :: (seg ++ var))
    else if c = '[' then splitVarAux cs (d + 1) (c :: seg) var
    else if c = ']' then splitVarAux cs (d - 1) (c :: seg) var
    else splitVarAux cs d (c :: seg) var

/-- Variant part and base part of a token's characters. -/
def splitVariantCh (cs : List Char) : List Char × List Char :=
  splitVarAux cs 0 [] []

/-- `hasPre p cs` holds when `p` is an initial segment of `cs`. -/
def hasPre : List Char → List Char → Bool
  | [], _ => true
  | _ :: _, [] => false
  | p :: ps, c :: cs => p == c && hasPre ps cs

/-- Modelled from the spec: the data-driven UtilityGroup classification table
(property-prefix → group, spec.md §9), covering the utility families the
repository's default strings and the spec's examples exercise.  Longer
prefixes come before their shorter ambiguous variants.  Prefixes are stored as
character lists (the form the matcher consumes). -/
def groupTable : List (List Char × String) :=
  [(['p', 'x', '-'], "px"), (['p', 'y', '-'], "py"),
   (['p', 't', '-'], "pt"), (['p', 'b', '-'], "pb"),
   (['p', 'l', '-'], "pl"), (['p', 'r', '-'], "pr"), (['p', '-'], "p"),
   (['m', 'x', '-'], "mx"), (['m', 'y', '-'], "my"),
   (['m', 't', '-'], "mt"), (['m', 'b', '-'], "mb"),
   (['m', 'l', '-'], "ml"), (['m', 'r', '-'], "mr"), (['m', '-'], "m"),
   (['i', 'n', 's', 'e', 't', '-'], "inset"),
   (['t', 'o', 'p', '-'], "top"),
   (['b', 'o', 't', 't', 'o', 'm', '-'], "bottom"),
   (['l', 'e', 'f', 't', '-'], "left"),
   (['r', 'i', 'g', 'h', 't', '-'], "right"), (['z', '-'], "z"),
   (['w', '-'], "w"), (['h', '-'], "h"),
   (['s', 'i', 'z', 'e', '-'], "size"), (['g', 'a', 'p', '-'], "gap"),
   (['o', 'p', 'a', 'c', 'i', 't', 'y', '-'], "opacity"),
   (['r', 'o', 'u', 'n', 'd', 'e', 'd', '-'], "rounded"),
   (['b', 'g', '-'], "bg"),
   (['d', 'u', 'r', 'a', 't', 'i', 'o', 'n', '-'], "duration")]

/-- The UtilityGroup of a token: its variant part paired with the group name of
the first table entry whose property-prefix starts its base part, or `none` for
unrecognized/non-utility tokens (spec.md §3, §4.1 step 3). -/
def utilityGroup (t : String) : Option (String × String) :=
  let p := splitVariantCh t.data
  match groupTable.find? (fun e => hasPre e.1 p.2) with
  | some e => some (String.mk p.1, e.2)
  | none => none

/-! ## Class inputs (clsx-style `ClassValue`, spec.md §3 `ClassInput`) -/

mutual

/-- A clsx-style class input: a string of tokens, a number, a boolean, null,
undefined, a nested sequence, or a mapping from token strings to booleans. -/
inductive ClassValue : Type where
  | str (s : String)
  | num (n : Int)
  | boolV (b : Bool)
  | null
  | undef
  | arr (xs : ClassList)
  | obj (fields : List (String × Bool))

/-- A sequence of nested class inputs. -/
inductive ClassList : Type where
  | nil
  | cons (head : ClassValue) (tail : ClassList)

end

/-- Flatten the truthy entries of a mapping input: emit the key's tokens iff the
associated value is true (spec.md §4.1 step 1). -/
def flattenPairs : List (String × Bool) → List String
  | [] => []
  | kv :: rest => (if kv.2 then splitTokens kv.1 else []) ++ flattenPairs rest

mutual

/-- Modelled from the spec: depth-first flattening of one `ClassInput` into its
ordered token sequence (spec.md §4.1 step 1); falsy, null, undefined and
empty-string inputs contribute nothing, truthy numbers contribute their decimal
string form (clsx stringifies numbers). -/
def flatten : ClassValue → List String
  | .str s => splitTokens s
  | .num n => if n = 0 then [] else [intDecimal n]
  | .boolV _ => []
  | .null => []
  | .undef => []
  | .arr xs => flattenList xs
  | .obj kvs => flattenPairs kvs

/-- Depth-first flattening of a nested sequence, earlier elements first. -/
def flattenList : ClassList → List String
  | .nil => []
  | .cons v t => flatten v ++ flattenList t

end

/-- Flatten an ordered sequence of class inputs, earlier arguments first. -/
def flatTokens : List ClassValue → List String
  | [] => []
  | v :: rest => flatten v ++ flatTokens rest

/-- Modelled from the spec: literal deduplication — when the same token string
occurs more than once, keep only its last occurrence (spec.md §4.1 step 2). -/
def dedupLast : List String → List String
  | [] => []
  | t :: rest => if t ∈ rest then dedupLast rest else t :: dedupLast rest

/-- Modelled from the spec: semantic conflict resolution — within each
recognized UtilityGroup keep only the last-occurring token; ungrouped tokens
always pass through (spec.md §4.1 step 3). -/
def resolveGroups : List String → List String
  | [] => []
  | t :: rest =>
    match utilityGroup t with
    | none => t :: resolveGroups rest
    | some g =>
      if rest.any (fun u => utilityGroup u = some g) then resolveGroups rest
      else t :: resolveGroups rest

/-- The surviving tokens of a composition, in ascending original order. -/
def composeTokens (inputs : List ClassValue) : List String :=
  resolveGroups (dedupLast (flatTokens inputs))

/-- Modelled from the spec: `compose(inputs) -> string`, the ClassComposer
contract of spec.md §4.1 (the behaviour of `twMerge(clsx(inputs))`, whose code
is external to the repository). -/
def compose (inputs : List ClassValue) : String :=
  joinSpace (composeTokens inputs)

/-- The repository's `cn` utility (src/unnamed/part_000): compose the inputs. -/
def cn (inputs : List ClassValue) : String :=
  compose inputs

example : compose [.str "px-2", .str "px-4"] = "px-4" := by decide
example : compose [.str "opacity-50", .str "hover:opacity-100"]
    = "opacity-50 hover:opacity-100" := by decide
example : compose [.obj [("font-bold", true), ("italic", false)]] = "font-bold" := by decide
example : compose [.arr (.cons (.str "a") (.cons (.arr (.cons (.str "b")
    (.cons (.str "c") .nil))) .nil))] = "a b c" := by decide
example : compose [] = "" := by decide
example : compose [.str "", .null, .boolV false, .undef] = "" := by decide
example : compose [.str "rounded-sm p-2", .str "rounded-lg"] = "p-2 rounded-lg" := by decide
example : compose [.str "a b a"] = "b a" := by decide
example : compose [.num 5] = "5" := by decide
example : compose [.num 0] = "" := by decide
example : compose [.num (-12)] = "-12" := by decide
example : compose [.str "px-2", .str "text-red-500"] = "px-2 text-red-500" := by decide

/-! ## Well-formed tokens and the split/join inverse -/

/-- A well-formed token: nonempty and free of spaces.  Every token the
flattening step emits is well-formed. -/
def wfTok (t : String) : Prop :=
  t.data ≠ [] ∧ ∀ c ∈ t.data, c ≠ ' '

theorem flatten_str (s : String) : flatten (.str s) = splitTokens s := rfl

theorem data_mk (cs : List Char) : (String.mk cs).data = cs := rfl

theorem mk_data (s : String) : String.mk s.data = s := rfl

theorem data_append (s t : String) : (s ++ t).data = s.data ++ t.data := rfl

theorem wf_splitChAux (cs : List Char) :
    ∀ acc, (∀ c ∈ acc, c ≠ ' ') →
      ∀ t ∈ splitChAux cs acc, t ≠ [] ∧ ∀ c ∈ t, c ≠ ' ' := by
  induction cs with
  | nil =>
    intro acc hacc t ht
    simp only [splitChAux] at ht
    by_cases h : acc = []
    · simp [h] at ht
    · simp [h] at ht
      subst ht
      refine ⟨by simpa using h, ?_⟩
      intro c hc
      exact hacc c (List.mem_reverse.mp hc)
  | cons c cs ih =>
    intro acc hacc t ht
    simp only [splitChAux] at ht
    by_cases hsp : c = ' '
    · simp only [hsp, if_pos rfl] at ht
      by_cases h : acc = []
      · simp only [h, if_pos rfl] at ht
        exact ih [] (by simp) t ht
      · simp only [h, if_neg h] at ht
        rcases List.mem_cons.mp ht with h1 | h1
        · subst h1
          refine ⟨by simpa using h, ?_⟩
          intro x hx
          exact hacc x (List.mem_reverse.mp hx)
        · exact ih [] (by simp) t h1
    · simp only [if_neg hsp] at ht
      refine ih (c :: acc) ?_ t ht
      intro x hx
      rcases List.mem_cons.mp hx with h1 | h1
      · subst h1; exact hsp
      · exact hacc x h1

theorem wf_splitTokens (s : String) : ∀ t ∈ splitTokens s, wfTok t := by
  intro t ht
  simp only [splitTokens, List.mem_map] at ht
  obtain ⟨cs, hcs, rfl⟩ := ht
  have := wf_splitChAux s.data [] (by simp) cs hcs
  exact ⟨by simpa [data_mk] using this.1, by simpa [data_mk] using this.2⟩

theorem splitChAux_token (t : List Char) :
    ∀ cs acc, (∀ c ∈ t, c ≠ ' ') →
      splitChAux (t ++ cs) acc = splitChAux cs (t.reverse ++ acc) := by
  induction t with
  | nil => intro cs acc _; simp
  | cons c t ih =>
    intro cs acc ht
    have hc : c ≠ ' ' := ht c (by simp)
    simp only [List.cons_append, splitChAux, if_neg hc, List.append_eq]
    rw [ih cs (c :: acc) (fun x hx => ht x (by simp [hx]))]
    simp

/-- Character-level join with single spaces, mirroring `joinSpace`. -/
def joinCh : List (List Char) → List Char
  | [] => []
  | [t] => t
  | t :: u :: ts => t ++ ' ' :: joinCh (u :: ts)

theorem joinSpace_data (ls : List String) :
    (joinSpace ls).data = joinCh (ls.map String.data) := by
  induction ls with
  | nil => rfl
  | cons t ts ih =>
    cases ts with
    | nil => rfl
    | cons u ts =>
      simp only [joinSpace, joinCh, List.map, data_append] at *
      rw [ih]
      simp [List.append_assoc]

theorem splitCh_joinCh (ls : List (List Char)) :
    (∀ t ∈ ls, t ≠ [] ∧ ∀ c ∈ t, c ≠ ' ') → splitCh (joinCh ls) = ls := by
  induction ls with
  | nil => intro _; rfl
  | cons t ts ih =>
    intro h
    have ht := h t (by simp)
    cases ts with
    | nil =>
      show splitChAux t [] = [t]
      have hrev : t.reverse ≠ [] := by
        simp only [ne_eq, List.reverse_eq_nil_iff]
        exact ht.1
      have := splitChAux_token t [] [] ht.2
      simp only [List.append_nil] at this
      rw [this]
      simp only [splitChAux, List.append_nil]
      rw [if_neg hrev]
      simp
    | cons u ts =>
      show splitChAux (t ++ ' ' :: joinCh (u :: ts)) [] = t :: u :: ts
      have hrev : t.reverse ≠ [] := by
        simp only [ne_eq, List.reverse_eq_nil_iff]
        exact ht.1
      rw [splitChAux_token t (' ' :: joinCh (u :: ts)) [] ht.2]
      simp only [splitChAux, if_pos rfl, List.append_nil]
      rw [if_neg hrev]
      simp only [List.reverse_reverse]
      have := ih (fun x hx => h x (by simp [hx]))
      exact congrArg (t :: ·) this

theorem splitTokens_joinSpace (ls : List String) (h : ∀ t ∈ ls, wfTok t) :
    splitTokens (joinSpace ls) = ls := by
  unfold splitTokens
  rw [joinSpace_data, splitCh_joinCh]
  · rw [List.map_map]
    have : (fun cs => String.mk cs) ∘ String.data = id := by
      funext s; exact mk_data s
    rw [this, List.map_id]
  · intro t ht
    simp only [List.mem_map] at ht
    obtain ⟨s, hs, rfl⟩ := ht
    exact (h s hs)

/-! ## Characters of decimal tokens -/

/-- The decimal digit characters. -/
def decDigits : List Char :=
  ['0', '1', '2', '3', '4', '5', '6', '7', '8', '9']

theorem digitChar_mem_decDigits (m : Nat) (h : m < 10) :
    Nat.digitChar m ∈ decDigits := by
  interval_cases m <;> decide

theorem natDecAux_chars (fuel : Nat) :
    ∀ n, ∀ c ∈ natDecAux fuel n, c ∈ decDigits := by
  induction fuel with
  | zero => intro n c hc; simp [natDecAux] at hc
  | succ fuel ih =>
    intro n c hc
    simp only [natDecAux] at hc
    by_cases h : n < 10
    · rw [if_pos h] at hc
      simp only [List.mem_singleton] at hc
      subst hc
      exact digitChar_mem_decDigits n h
    · rw [if_neg h] at hc
      rcases List.mem_append.mp hc with h1 | h1
      · exact ih (n / 10) c h1
      · simp only [List.mem_singleton] at h1
        subst h1
        exact digitChar_mem_decDigits (n % 10) (Nat.mod_lt n (by omega))

theorem natDec_chars (n : Nat) : ∀ c ∈ natDec n, c ∈ decDigits :=
  natDecAux_chars (n + 1) n

theorem natDecAux_ne_nil (fuel n : Nat) : natDecAux (fuel + 1) n ≠ [] := by
  simp only [natDecAux]
  by_cases h : n < 10
  · simp [h]
  · simp [h]

theorem natDec_ne_nil (n : Nat) : natDec n ≠ [] :=
  natDecAux_ne_nil n n

/-- Every character of a decimal token is a digit or the minus sign. -/
theorem intDecimal_chars (i : Int) :
    ∀ c ∈ (intDecimal i).data, c = '-' ∨ c ∈ decDigits := by
  intro c hc
  cases i with
  | ofNat n =>
    simp only [intDecimal, data_mk] at hc
    exact Or.inr (natDec_chars n c hc)
  | negSucc n =>
    simp only [intDecimal, data_mk, List.mem_cons] at hc
    rcases hc with h | h
    · exact Or.inl h
    · exact Or.inr (natDec_chars (n + 1) c h)

theorem decDigits_tame : ∀ c ∈ decDigits, c ≠ ' ' ∧ c ≠ ':' := by decide

theorem wf_intDecimal (i : Int) : wfTok (intDecimal i) := by
  constructor
  · cases i with
    | ofNat n => simpa [intDecimal, data_mk] using natDec_ne_nil n
    | negSucc n => simp [intDecimal, data_mk]
  · intro c hc
    rcases intDecimal_chars i c hc with h | h
    · subst h; decide
    · exact (decDigits_tame c h).1

/-! ## Every flattened token is well-formed -/

theorem wf_flattenPairs (kvs : List (String × Bool)) :
    ∀ t ∈ flattenPairs kvs, wfTok t := by
  induction kvs with
  | nil => intro t ht; simp [flattenPairs] at ht
  | cons kv rest ih =>
    intro t ht
    simp only [flattenPairs] at ht
    rcases List.mem_append.mp ht with h | h
    · by_cases hb : kv.2
      · rw [if_pos hb] at h
        exact wf_splitTokens kv.1 t h
      · rw [if_neg hb] at h
        simp at h
    · exact ih t h

mutual

theorem wf_flatten : ∀ (v : ClassValue), ∀ t ∈ flatten v, wfTok t
  | .str s => fun t ht => wf_splitTokens s t ht
  | .num n => by
    intro t ht
    simp only [flatten] at ht
    by_cases h : n = 0
    · rw [if_pos h] at ht; simp at ht
    · rw [if_neg h] at ht
      simp only [List.mem_singleton] at ht
      subst ht
      exact wf_intDecimal n
  | .boolV b => by intro t ht; simp [flatten] at ht
  | .null => by intro t ht; simp [flatten] at ht
  | .undef => by intro t ht; simp [flatten] at ht
  | .arr xs => fun t ht => wf_flattenList xs t ht
  | .obj kvs => fun t ht => wf_flattenPairs kvs t ht

theorem wf_flattenList : ∀ (l : ClassList), ∀ t ∈ flattenList l, wfTok t
  | .nil => by intro t ht; simp [flattenList] at ht
  | .cons v rest => by
    intro t ht
    simp only [flattenList] at ht
    rcases List.mem_append.mp ht with h | h
    · exact wf_flatten v t h
    · exact wf_flattenList rest t h

end

theorem wf_flatTokens (inputs : List ClassValue) :
    ∀ t ∈ flatTokens inputs, wfTok t := by
  induction inputs with
  | nil => intro t ht; simp [flatTokens] at ht
  | cons v rest ih =>
    intro t ht
    simp only [flatTokens] at ht
    rcases List.mem_append.mp ht with h | h
    · exact wf_flatten v t h
    · exact ih t h

/-! ## Literal deduplication keeps last occurrences -/

theorem dedupLast_eq_dedup (l : List String) : dedupLast l = l.dedup := by
  induction l with
  | nil => rfl
  | cons t rest ih =>
    simp only [dedupLast]
    by_cases h : t ∈ rest
    · rw [if_pos h, ih, List.dedup_cons_of_mem h]
    · rw [if_neg h, ih, List.dedup_cons_of_not_mem h]

theorem mem_dedupLast {a : String} {l : List String} : a ∈ dedupLast l ↔ a ∈ l := by
  rw [dedupLast_eq_dedup]; exact List.mem_dedup

theorem dedupLast_sublist (l : List String) : List.Sublist (dedupLast l) l := by
  rw [dedupLast_eq_dedup]; exact List.dedup_sublist l

theorem nodup_dedupLast (l : List String) : (dedupLast l).Nodup := by
  rw [dedupLast_eq_dedup]; exact List.nodup_dedup l

theorem dedupLast_eq_self {l : List String} (h : l.Nodup) : dedupLast l = l := by
  rw [dedupLast_eq_dedup]; exact h.dedup

theorem getLast?_cons_of_ne_nil {α : Type} {a : α} {l : List α} (h : l ≠ []) :
    (a :: l).getLast? = l.getLast? := by
  cases l with
  | nil => exact absurd rfl h
  | cons b l => exact List.getLast?_cons_cons

theorem ne_nil_of_getLast?_eq_some {α : Type} {l : List α} {a : α}
    (h : l.getLast? = some a) : l ≠ [] := by
  intro hnil
  subst hnil
  simp at h

theorem dedupLast_filter_getLast? (p : String → Bool) (l : List String) :
    ((dedupLast l).filter p).getLast? = (l.filter p).getLast? := by
  induction l with
  | nil => rfl
  | cons t rest ih =>
    simp only [dedupLast]
    by_cases hmem : t ∈ rest
    · rw [if_pos hmem, ih]
      by_cases hp : p t
      · rw [List.filter_cons_of_pos hp]
        have htf : t ∈ rest.filter p := List.mem_filter.mpr ⟨hmem, hp⟩
        exact (getLast?_cons_of_ne_nil (List.ne_nil_of_mem htf)).symm
      · rw [List.filter_cons_of_neg (by simpa using hp)]
    · rw [if_neg hmem]
      by_cases hp : p t
      · rw [List.filter_cons_of_pos hp, List.filter_cons_of_pos hp]
        by_cases h2 : rest.filter p = []
        · have h3 : (dedupLast rest).filter p = [] := by
            have hsub : List.Sublist ((dedupLast rest).filter p) (rest.filter p) :=
              List.Sublist.filter p (dedupLast_sublist rest)
            rw [h2] at hsub
            exact List.sublist_nil.mp hsub
          rw [h2, h3]
        · have h4 : (dedupLast rest).filter p ≠ [] := by
            intro h5
            rw [h5] at ih
            exact h2 (List.getLast?_eq_none_iff.mp ih.symm)
          rw [getLast?_cons_of_ne_nil h4, getLast?_cons_of_ne_nil h2, ih]
      · rw [List.filter_cons_of_neg (by simpa using hp),
          List.filter_cons_of_neg (by simpa using hp)]
        exact ih

/-! ## Group conflict resolution keeps the last token of each group -/

theorem resolveGroups_cons_none {t : String} {rest : List String}
    (h : utilityGroup t = none) :
    resolveGroups (t :: rest) = t :: resolveGroups rest := by
  simp [resolveGroups, h]

theorem resolveGroups_cons_some_any {t : String} {rest : List String}
    {g : String × String} (h : utilityGroup t = some g)
    (ha : rest.any (fun u => utilityGroup u = some g)) :
    resolveGroups (t :: rest) = resolveGroups rest := by
  simp [resolveGroups, h, ha]

theorem resolveGroups_cons_some_not {t : String} {rest : List String}
    {g : String × String} (h : utilityGroup t = some g)
    (ha : ¬rest.any (fun u => utilityGroup u = some g)) :
    resolveGroups (t :: rest) = t :: resolveGroups rest := by
  simp only [resolveGroups, h]
  rw [if_neg (by simpa using ha)]

theorem resolveGroups_sublist (l : List String) :
    List.Sublist (resolveGroups l) l := by
  induction l with
  | nil => exact List.Sublist.refl []
  | cons t rest ih =>
    cases hug : utilityGroup t with
    | none => rw [resolveGroups_cons_none hug]; exact ih.cons₂ t
    | some g =>
      by_cases hany : rest.any (fun u => utilityGroup u = some g)
      · rw [resolveGroups_cons_some_any hug hany]; exact ih.cons t
      · rw [resolveGroups_cons_some_not hug hany]; exact ih.cons₂ t

theorem mem_resolveGroups_of_none {t : String} (h : utilityGroup t = none)
    (l : List String) : t ∈ resolveGroups l ↔ t ∈ l := by
  induction l with
  | nil => simp [resolveGroups]
  | cons u rest ih =>
    cases hug : utilityGroup u with
    | none => rw [resolveGroups_cons_none hug]; simp only [List.mem_cons, ih]
    | some g =>
      have hne : t ≠ u := by
        intro he; rw [he, hug] at h; exact Option.noConfusion h
      by_cases hany : rest.any (fun v => utilityGroup v = some g)
      · rw [resolveGroups_cons_some_any hug hany, ih]
        simp [hne]
      · rw [resolveGroups_cons_some_not hug hany]
        simp [List.mem_cons, ih, hne]

theorem resolveGroups_filter (g : String × String) (l : List String) :
    (resolveGroups l).filter (fun u => utilityGroup u = some g)
      = ((l.filter (fun u => utilityGroup u = some g)).getLast?).toList := by
  induction l with
  | nil => rfl
  | cons t rest ih =>
    cases hug : utilityGroup t with
    | none =>
      rw [resolveGroups_cons_none hug,
        List.filter_cons_of_neg (by simp [hug]),
        List.filter_cons_of_neg (by simp [hug])]
      exact ih
    | some gt =>
      by_cases hgt : gt = g
      · subst hgt
        by_cases hany : rest.any (fun u => utilityGroup u = some gt)
        · rw [resolveGroups_cons_some_any hug hany, ih]
          have hne : rest.filter (fun u => utilityGroup u = some gt) ≠ [] := by
            obtain ⟨u, hu, hp⟩ := List.any_eq_true.mp hany
            exact List.ne_nil_of_mem (List.mem_filter.mpr ⟨hu, hp⟩)
          rw [List.filter_cons_of_pos (by simp [hug]),
            getLast?_cons_of_ne_nil hne]
        · rw [resolveGroups_cons_some_not hug hany]
          have hnil : rest.filter (fun u => utilityGroup u = some gt) = [] := by
            rw [List.filter_eq_nil_iff]
            intro u hu
            simp only [Bool.not_eq_true, decide_eq_false_iff_not]
            intro hcon
            exact hany (List.any_eq_true.mpr ⟨u, hu, by simp [hcon]⟩)
          rw [List.filter_cons_of_pos (by simp [hug]),
            List.filter_cons_of_pos (by simp [hug]), ih, hnil]
          rfl
      · have hneq : ¬(utilityGroup t = some g) := by
          rw [hug]; intro hcon
          exact hgt (Option.some_injective _ hcon)
        by_cases hany : rest.any (fun u => utilityGroup u = some gt)
        · rw [resolveGroups_cons_some_any hug hany, ih,
            List.filter_cons_of_neg (by simp [hneq])]
        · rw [resolveGroups_cons_some_not hug hany,
            List.filter_cons_of_neg (by simp [hneq]),
            List.filter_cons_of_neg (by simp [hneq])]
          exact ih

/-- Two tokens in this relation never collide in the group-resolution step:
either the first has no recognized group or their groups differ. -/
def groupsOk (a b : String) : Prop :=
  utilityGroup a = none ∨ utilityGroup a ≠ utilityGroup b

theorem resolveGroups_pairwise (l : List String) :
    (resolveGroups l).Pairwise groupsOk := by
  induction l with
  | nil => exact List.Pairwise.nil
  | cons t rest ih =>
    cases hug : utilityGroup t with
    | none =>
      rw [resolveGroups_cons_none hug]
      exact List.Pairwise.cons (fun u _ => Or.inl hug) ih
    | some g =>
      by_cases hany : rest.any (fun u => utilityGroup u = some g)
      · rw [resolveGroups_cons_some_any hug hany]; exact ih
      · rw [resolveGroups_cons_some_not hug hany]
        refine List.Pairwise.cons (fun u hu => ?_) ih
        have hurest : u ∈ rest :=
          (resolveGroups_sublist rest).subset hu
        have hne : utilityGroup u ≠ some g := by
          intro hcon
          exact hany (List.any_eq_true.mpr ⟨u, hurest, by simp [hcon]⟩)
        exact Or.inr (by rw [hug]; exact fun he => hne he.symm)

theorem resolveGroups_eq_self {l : List String} (h : l.Pairwise groupsOk) :
    resolveGroups l = l := by
  induction l with
  | nil => rfl
  | cons t rest ih =>
    rw [List.pairwise_cons] at h
    cases hug : utilityGroup t with
    | none => rw [resolveGroups_cons_none hug, ih h.2]
    | some g =>
      have hany : ¬rest.any (fun u => utilityGroup u = some g) := by
        intro hcon
        obtain ⟨u, hu, hp⟩ := List.any_eq_true.mp hcon
        have hpu : utilityGroup u = some g := by simpa using hp
        rcases h.1 u hu with h1 | h1
        · rw [hug] at h1; exact Option.noConfusion h1
        · exact h1 (by rw [hug, hpu])
      rw [resolveGroups_cons_some_not hug hany, ih h.2]

/-! ## Facts about the composed token sequence -/

theorem composeTokens_sublist_flat (inputs : List ClassValue) :
    List.Sublist (composeTokens inputs) (flatTokens inputs) :=
  (resolveGroups_sublist _).trans (dedupLast_sublist _)

theorem nodup_composeTokens (inputs : List ClassValue) :
    (composeTokens inputs).Nodup :=
  (nodup_dedupLast (flatTokens inputs)).sublist (resolveGroups_sublist _)

theorem wf_composeTokens (inputs : List ClassValue) :
    ∀ t ∈ composeTokens inputs, wfTok t :=
  fun t ht => wf_flatTokens inputs t ((composeTokens_sublist_flat inputs).subset ht)

theorem pairwise_composeTokens (inputs : List ClassValue) :
    (composeTokens inputs).Pairwise groupsOk :=
  resolveGroups_pairwise _

/-- Re-tokenizing a composed class string recovers exactly the surviving
token sequence. -/
theorem splitTokens_compose (inputs : List ClassValue) :
    splitTokens (compose inputs) = composeTokens inputs :=
  splitTokens_joinSpace _ (wf_composeTokens inputs)

theorem flatTokens_append (l1 l2 : List ClassValue) :
    flatTokens (l1 ++ l2) = flatTokens l1 ++ flatTokens l2 := by
  induction l1 with
  | nil => rfl
  | cons v rest ih =>
    simp only [flatTokens, List.cons_append, List.append_eq, ih, List.append_assoc]

/-! ## Tokens made of digits and dashes have no utility group -/

theorem splitVarAux_no_colon (cs : List Char) :
    ∀ d seg var, (∀ c ∈ cs, c ≠ ':') →
      splitVarAux cs d seg var = (var.reverse, seg.reverse ++ cs) := by
  induction cs with
  | nil => intro d seg var _; simp [splitVarAux]
  | cons c cs ih =>
    intro d seg var h
    have hc : c ≠ ':' := h c (by simp)
    have hrest : ∀ x ∈ cs, x ≠ ':' := fun x hx => h x (by simp [hx])
    simp only [splitVarAux]
    rw [if_neg (by simp [hc])]
    by_cases h1 : c = '['
    · rw [if_pos h1, ih _ _ _ hrest]; simp
    · rw [if_neg h1]
      by_cases h2 : c = ']'
      · rw [if_pos h2, ih _ _ _ hrest]; simp
      · rw [if_neg h2, ih _ _ _ hrest]; simp

theorem splitVariantCh_no_colon (cs : List Char) (h : ∀ c ∈ cs, c ≠ ':') :
    splitVariantCh cs = ([], cs) := by
  unfold splitVariantCh
  rw [splitVarAux_no_colon cs 0 [] [] h]
  rfl

theorem utilityGroup_mk_none (c : Char) (cs : List Char)
    (hc : c = '-' ∨ c ∈ decDigits)
    (hcs : ∀ x ∈ cs, x = '-' ∨ x ∈ decDigits) :
    utilityGroup (String.mk (c :: cs)) = none := by
  have hnc : ∀ x ∈ c :: cs, x ≠ ':' := by
    intro x hx
    have hx2 : x = '-' ∨ x ∈ decDigits := by
      rcases List.mem_cons.mp hx with h | h
      · subst h; exact hc
      · exact hcs x h
    rcases hx2 with rfl | hm
    · decide
    · exact (decDigits_tame x hm).2
  have hsv : splitVariantCh (c :: cs) = ([], c :: cs) :=
    splitVariantCh_no_colon _ hnc
  have hfind : groupTable.find? (fun e => hasPre e.1 (c :: cs)) = none := by
    rcases hc with rfl | hm
    · simp [groupTable, List.find?, hasPre]
    · fin_cases hm <;> simp [groupTable, List.find?, hasPre]
  simp [utilityGroup, data_mk, hsv, hfind]

theorem utilityGroup_intDecimal (i : Int) : utilityGroup (intDecimal i) = none := by
  cases i with
  | ofNat n =>
    obtain ⟨c, cs, hcc⟩ := List.exists_cons_of_ne_nil (natDec_ne_nil n)
    have hall : ∀ x ∈ c :: cs, x ∈ decDigits := by
      rw [← hcc]; exact natDec_chars n
    show utilityGroup (String.mk (natDec n)) = none
    rw [hcc]
    exact utilityGroup_mk_none c cs (Or.inr (hall c (by simp)))
      (fun x hx => Or.inr (hall x (by simp [hx])))
  | negSucc n =>
    show utilityGroup (String.mk ('-' :: natDec (n + 1))) = none
    exact utilityGroup_mk_none '-' (natDec (n + 1)) (Or.inl rfl)
      (fun x hx => Or.inr (natDec_chars (n + 1) x hx))

/-- A single well-formed token splits to itself. -/
theorem splitTokens_single {t : String} (h : wfTok t) : splitTokens t = [t] := by
  have hj := splitTokens_joinSpace [t] (by
    intro x hx
    simp only [List.mem_singleton] at hx
    subst hx
    exact h)
  simpa [joinSpace] using hj

/-! ## Decidability instances for concrete witnesses -/

instance (t : String) : Decidable (wfTok t) := by
  unfold wfTok; infer_instance

instance : DecidableRel groupsOk := fun a b => by
  unfold groupsOk; infer_instance

/-- Two tokens that neither repeat literally nor share a recognized group. -/
def noConflict (a b : String) : Prop :=
  a ≠ b ∧ groupsOk a b

instance : DecidableRel noConflict := fun a b => by
  unfold noConflict; infer_instance

/-! ## The class-merging wrapper components -/

/-- The `className` computed by `Avatar` (src/src/components/ui/avatar.tsx,
lines 15–29): the fixed default string composed before the caller-supplied
class input. -/
def avatarClassName (c : ClassValue) : String :=
  cn [.str "relative flex size-8 shrink-0 overflow-hidden rounded-full", c]

/-- The `className` computed by `Label` (src/unnamed/part_001, lines 17–31). -/
def labelClassName (c : ClassValue) : String :=
  cn [.str "flex items-center gap-2 text-sm leading-none font-medium select-none group-data-[disabled=true]:pointer-events-none group-data-[disabled=true]:opacity-50 peer-disabled:cursor-not-allowed peer-disabled:opacity-50", c]

/-- The `className` computed by `DialogOverlay`
(src/src/components/ui/dialog.tsx, lines 66–80). -/
def dialogOverlayClassName (c : ClassValue) : String :=
  cn [.str "data-[state=open]:animate-in data-[state=closed]:animate-out data-[state=closed]:fade-out-0 data-[state=open]:fade-in-0 fixed inset-0 z-50 bg-black/50", c]

/-- The edge a sheet slides in from (src/unnamed/part_002, `side` prop). -/
inductive Side : Type where
  | top
  | right
  | bottom
  | left
deriving DecidableEq

/-- A JavaScript `cond && "string"` argument: the string when the condition
holds, otherwise the falsy value `false`. -/
def condStr (b : Bool) (s : String) : ClassValue :=
  if b then .str s else .boolV false

/-- The `className` computed by `SheetContent` (src/unnamed/part_002,
lines 92–127): base classes, four side-conditional strings, then the
caller-supplied class input. -/
def sheetContentClassName (side : Side) (c : ClassValue) : String :=
  cn [.str "bg-background data-[state=open]:animate-in data-[state=closed]:animate-out fixed z-50 flex flex-col gap-4 shadow-lg transition ease-in-out data-[state=closed]:duration-300 data-[state=open]:duration-500",
      condStr (side = .right) "data-[state=closed]:slide-out-to-right data-[state=open]:slide-in-from-right inset-y-0 right-0 h-full w-3/4 border-l sm:max-w-sm",
      condStr (side = .left) "data-[state=closed]:slide-out-to-left data-[state=open]:slide-in-from-left inset-y-0 left-0 h-full w-3/4 border-r sm:max-w-sm",
      condStr (side = .top) "data-[state=closed]:slide-out-to-top data-[state=open]:slide-in-from-top inset-x-0 top-0 h-auto border-b",
      condStr (side = .bottom) "data-[state=closed]:slide-out-to-bottom data-[state=open]:slide-in-from-bottom inset-x-0 bottom-0 h-auto border-t",
      c]

theorem getLast?_append_of_ne_nil {α : Type} {l2 : List α} (l1 : List α)
    (h : l2 ≠ []) : (l1 ++ l2).getLast? = l2.getLast? := by
  induction l1 with
  | nil => rfl
  | cons a l1 ih =>
    rw [List.cons_append, getLast?_cons_of_ne_nil, ih]
    intro hc
    exact h (List.append_eq_nil.mp hc).2

/-- When the caller string contributes a token of group `g`, the surviving
`g`-token of the whole composition is the caller's last `g`-token, whatever
tokens came before. -/
theorem caller_group_wins (pre : List String) (caller : String)
    (g : String × String)
    (h : (splitTokens caller).filter (fun u => utilityGroup u = some g) ≠ []) :
    (resolveGroups (dedupLast (pre ++ splitTokens caller))).filter
        (fun u => utilityGroup u = some g)
      = (((splitTokens caller).filter
          (fun u => utilityGroup u = some g)).getLast?).toList := by
  rw [resolveGroups_filter, dedupLast_filter_getLast?, List.filter_append,
    getLast?_append_of_ne_nil _ h]

/-! ## Remaining helpers for the claims -/

theorem utilityGroup_fst {t : String} {g : String × String}
    (h : utilityGroup t = some g) :
    g.1 = String.mk (splitVariantCh t.data).1 := by
  simp only [utilityGroup] at h
  revert h
  cases hfind : groupTable.find? (fun e => hasPre e.1 (splitVariantCh t.data).2) with
  | none => intro h; exact absurd h (by simp)
  | some e =>
    intro h
    injection h with h2
    rw [← h2]

theorem mem_flattenPairs_iff :
    ∀ (kvs : List (String × Bool)), (∀ kv ∈ kvs, wfTok kv.1) →
      ∀ k, (k ∈ flattenPairs kvs ↔ (k, true) ∈ kvs) := by
  intro kvs
  induction kvs with
  | nil => intro _ k; simp [flattenPairs]
  | cons kv rest ih =>
    intro h k
    have hrest := ih (fun x hx => h x (by simp [hx]))
    simp only [flattenPairs, List.mem_append, List.mem_cons]
    by_cases hb : kv.2
    · rw [if_pos hb, splitTokens_single (h kv (by simp))]
      have hkv : kv = (kv.1, true) := by
        cases kv with
        | mk a b => simp at hb; simp [hb]
      constructor
      · intro hmem
        rcases hmem with h1 | h1
        · simp only [List.mem_singleton] at h1
          exact Or.inl (by rw [hkv, h1])
        · exact Or.inr ((hrest k).mp h1)
      · intro hmem
        rcases hmem with h1 | h1
        · refine Or.inl ?_
          simp only [List.mem_singleton]
          exact congrArg Prod.fst h1
        · exact Or.inr ((hrest k).mpr h1)
    · rw [if_neg hb]
      have hkv : (k, true) ≠ kv := by
        intro he
        apply hb
        rw [← he]
      constructor
      · intro hmem
        rcases hmem with h1 | h1
        · simp at h1
        · exact Or.inr ((hrest k).mp h1)
      · intro hmem
        rcases hmem with h1 | h1
        · exact absurd h1.symm (by intro hc; exact hkv hc.symm)
        · exact Or.inr ((hrest k).mpr h1)

theorem flatTokens_eq_nil_of_falsy :
    ∀ (inputs : List ClassValue),
      (∀ x ∈ inputs,
        x = .str "" ∨ x = .null ∨ x = .undef ∨ x = .boolV false) →
      flatTokens inputs = [] := by
  intro inputs
  induction inputs with
  | nil => intro _; rfl
  | cons v rest ih =>
    intro h
    have hrest : flatTokens rest = [] := ih (fun x hx => h x (by simp [hx]))
    have hv := h v (by simp)
    show flatten v ++ flatTokens rest = []
    rcases hv with rfl | rfl | rfl | rfl <;>
      simp [hrest, show flatten (ClassValue.str "") = [] from by decide,
        show flatten ClassValue.null = [] from by decide,
        show flatten ClassValue.undef = [] from by decide,
        show flatten (ClassValue.boolV false) = [] from by decide]

/-! ## The claims -/

/-- C1: for every pair of tokens in the same UtilityGroup in the composed input
ordering, compose keeps only the later one: the composition's surviving tokens
of any group `g` are exactly the last `g`-token of the flattened ordering; in
particular `compose ["px-2", "px-4"] = "px-4"`. -/
theorem compose_last_write_wins (inputs : List ClassValue) (g : String × String) :
    (composeTokens inputs).filter (fun u => utilityGroup u = some g)
        = (((flatTokens inputs).filter
            (fun u => utilityGroup u = some g)).getLast?).toList
      ∧ compose [.str "px-2", .str "px-4"] = "px-4" := by
  constructor
  · unfold composeTokens
    rw [resolveGroups_filter, dedupLast_filter_getLast?]
  · decide

/-- C2: compose is total — it is a total function on every `ClassValue` shape
(strings, numbers, booleans, null, undefined, nested sequences, mappings), and
an unrecognized token (one with no utility group) passes through the
composition exactly when it occurs in the flattened input. -/
theorem compose_total_pass_through (inputs : List ClassValue) (t : String)
    (h : utilityGroup t = none) :
    t ∈ composeTokens inputs ↔ t ∈ flatTokens inputs :=
  ⟨fun ht => (composeTokens_sublist_flat inputs).subset ht,
   fun ht => (mem_resolveGroups_of_none h _).mpr (mem_dedupLast.mpr ht)⟩

theorem compose_total_pass_through_witness :
    utilityGroup "custom-chip" = none
      ∧ ("custom-chip" ∈ composeTokens [.str "custom-chip px-2"]
          ↔ "custom-chip" ∈ flatTokens [.str "custom-chip px-2"]) :=
  ⟨by decide, compose_total_pass_through [.str "custom-chip px-2"] "custom-chip"
    (by decide)⟩

/-- C3: literal deduplication — composition's output never repeats a token
string (its token list is `Nodup`), the literal-dedup pass agrees with
Mathlib's last-occurrence `List.dedup`, and a repeated unrecognized token
keeps only its last occurrence position: `compose ["a b a"] = "b a"`. -/
theorem compose_dedup (inputs : List ClassValue) :
    (composeTokens inputs).Nodup
      ∧ dedupLast (flatTokens inputs) = (flatTokens inputs).dedup
      ∧ compose [.str "a b a"] = "b a" :=
  ⟨nodup_composeTokens inputs, dedupLast_eq_dedup (flatTokens inputs), by decide⟩

/-- C4: compose is idempotent — feeding the composed output back in as a single
string input reproduces it: `compose [compose [a, b]] = compose [a, b]`. -/
theorem compose_idempotent (a b : ClassValue) :
    compose [.str (compose [a, b])] = compose [a, b] := by
  have h1 : flatTokens [ClassValue.str (compose [a, b])] = composeTokens [a, b] := by
    show splitTokens (compose [a, b]) ++ [] = composeTokens [a, b]
    rw [List.append_nil, splitTokens_compose]
  show joinSpace (resolveGroups (dedupLast
    (flatTokens [ClassValue.str (compose [a, b])]))) = compose [a, b]
  rw [h1, dedupLast_eq_self (nodup_composeTokens [a, b]),
    resolveGroups_eq_self (pairwise_composeTokens [a, b])]
  rfl

/-- C5: compose of an empty sequence is the empty string, and compose of any
sequence of empty/falsy inputs (empty string, null, undefined, false) is the
empty string. -/
theorem compose_empty (inputs : List ClassValue)
    (h : ∀ x ∈ inputs,
      x = .str "" ∨ x = .null ∨ x = .undef ∨ x = .boolV false) :
    compose inputs = "" ∧ compose [] = "" := by
  refine ⟨?_, by decide⟩
  show joinSpace (resolveGroups (dedupLast (flatTokens inputs))) = ""
  rw [flatTokens_eq_nil_of_falsy inputs h]
  rfl

theorem compose_empty_witness :
    (∀ x ∈ [ClassValue.str "", ClassValue.null, ClassValue.undef,
        ClassValue.boolV false],
      x = ClassValue.str "" ∨ x = ClassValue.null ∨ x = ClassValue.undef
        ∨ x = ClassValue.boolV false)
      ∧ (compose [ClassValue.str "", ClassValue.null, ClassValue.undef,
          ClassValue.boolV false] = "" ∧ compose [] = "") := by
  refine ⟨?_, ?_⟩
  · intro x hx
    rcases List.mem_cons.mp hx with rfl | hx
    · exact Or.inl rfl
    rcases List.mem_cons.mp hx with rfl | hx
    · exact Or.inr (Or.inl rfl)
    rcases List.mem_cons.mp hx with rfl | hx
    · exact Or.inr (Or.inr (Or.inl rfl))
    rcases List.mem_cons.mp hx with rfl | hx
    · exact Or.inr (Or.inr (Or.inr rfl))
    · simp at hx
  · refine compose_empty _ ?_
    intro x hx
    rcases List.mem_cons.mp hx with rfl | hx
    · exact Or.inl rfl
    rcases List.mem_cons.mp hx with rfl | hx
    · exact Or.inr (Or.inl rfl)
    rcases List.mem_cons.mp hx with rfl | hx
    · exact Or.inr (Or.inr (Or.inl rfl))
    rcases List.mem_cons.mp hx with rfl | hx
    · exact Or.inr (Or.inr (Or.inr rfl))
    · simp at hx

/-- C6: two tokens with different variant/state prefixes never conflict — for
well-formed tokens whose variant parts differ, both survive composition in
order; in particular `compose ["opacity-50", "hover:opacity-100"]` keeps both. -/
theorem compose_variant_scoped (t u : String) (ht : wfTok t) (hu : wfTok u)
    (hv : (splitVariantCh t.data).1 ≠ (splitVariantCh u.data).1) :
    compose [.str t, .str u] = t ++ " " ++ u
      ∧ compose [.str "opacity-50", .str "hover:opacity-100"]
          = "opacity-50 hover:opacity-100" := by
  refine ⟨?_, by decide⟩
  have hne : t ≠ u := fun he => hv (by rw [he])
  have hflat : flatTokens [ClassValue.str t, ClassValue.str u] = [t, u] := by
    show splitTokens t ++ (splitTokens u ++ []) = [t, u]
    rw [splitTokens_single ht, splitTokens_single hu]
    rfl
  have hgok : groupsOk t u := by
    cases hug : utilityGroup t with
    | none => exact Or.inl hug
    | some g =>
      refine Or.inr ?_
      rw [hug]
      cases hug2 : utilityGroup u with
      | none => simp
      | some g2 =>
        intro hcon
        have h1 := utilityGroup_fst hug
        have h2 := utilityGroup_fst hug2
        have hgg : g = g2 := Option.some_injective _ hcon
        apply hv
        have h3 : String.mk (splitVariantCh t.data).1
            = String.mk (splitVariantCh u.data).1 := by
          rw [← h1, ← h2, hgg]
        exact congrArg String.data h3
  have hdl : dedupLast [t, u] = [t, u] := by
    simp [dedupLast, hne]
  have hrg : resolveGroups [t, u] = [t, u] := by
    apply resolveGroups_eq_self
    refine List.pairwise_cons.mpr ⟨fun b hb => ?_, by simp⟩
    simp only [List.mem_singleton] at hb
    subst hb
    exact hgok
  show joinSpace (resolveGroups (dedupLast
    (flatTokens [ClassValue.str t, ClassValue.str u]))) = t ++ " " ++ u
  rw [hflat, hdl, hrg]
  rfl

theorem compose_variant_scoped_witness :
    wfTok "opacity-50" ∧ wfTok "hover:opacity-100"
      ∧ (splitVariantCh "opacity-50".data).1
          ≠ (splitVariantCh "hover:opacity-100".data).1
      ∧ compose [.str "opacity-50", .str "hover:opacity-100"]
          = "opacity-50" ++ " " ++ "hover:opacity-100" :=
  ⟨by decide, by decide, by decide,
    (compose_variant_scoped "opacity-50" "hover:opacity-100"
      (by decide) (by decide) (by decide)).1⟩

/-- C7: a mapping input emits a key token into the flattened sequence exactly
when its associated value is truthy; in particular
`compose [{font-bold: true, italic: false}] = "font-bold"`. -/
theorem compose_conditional_mapping (kvs : List (String × Bool)) (k : String)
    (h : ∀ kv ∈ kvs, wfTok kv.1) :
    (k ∈ flatten (.obj kvs) ↔ (k, true) ∈ kvs)
      ∧ compose [.obj [("font-bold", true), ("italic", false)]] = "font-bold" := by
  refine ⟨?_, by decide⟩
  show k ∈ flattenPairs kvs ↔ (k, true) ∈ kvs
  exact mem_flattenPairs_iff kvs h k

theorem compose_conditional_mapping_witness :
    (∀ kv ∈ [("font-bold", true), ("italic", false)], wfTok kv.1)
      ∧ (("font-bold" ∈ flatten (.obj [("font-bold", true), ("italic", false)])
            ↔ ("font-bold", true) ∈ [("font-bold", true), ("italic", false)])
          ∧ compose [.obj [("font-bold", true), ("italic", false)]]
              = "font-bold") :=
  ⟨by decide,
    compose_conditional_mapping [("font-bold", true), ("italic", false)]
      "font-bold" (by decide)⟩

/-- C8: flattening is depth-first and order-preserving — the output tokens are
a subsequence of the flattened ordering, earlier arguments flatten first, a
collision-free flattening survives composition unchanged, and
`compose [["a", ["b", "c"]]] = "a b c"`. -/
theorem compose_flatten_order (inputs l1 l2 : List ClassValue) :
    List.Sublist (composeTokens inputs) (flatTokens inputs)
      ∧ flatTokens (l1 ++ l2) = flatTokens l1 ++ flatTokens l2
      ∧ ((flatTokens inputs).Pairwise noConflict →
          compose inputs = joinSpace (flatTokens inputs))
      ∧ compose [.arr (.cons (.str "a") (.cons (.arr (.cons (.str "b")
          (.cons (.str "c") .nil))) .nil))] = "a b c" := by
  refine ⟨composeTokens_sublist_flat inputs, flatTokens_append l1 l2, ?_, by decide⟩
  intro hp
  show joinSpace (resolveGroups (dedupLast (flatTokens inputs))) = _
  rw [dedupLast_eq_self (List.Pairwise.imp (fun hab => hab.1) hp),
    resolveGroups_eq_self (List.Pairwise.imp (fun hab => hab.2) hp)]

theorem compose_flatten_order_witness :
    (flatTokens [ClassValue.str "a b c"]).Pairwise noConflict
      ∧ compose [ClassValue.str "a b c"]
          = joinSpace (flatTokens [ClassValue.str "a b c"]) :=
  ⟨by decide,
    (compose_flatten_order [.str "a b c"] [] []).2.2.1 (by decide)⟩

/-- The filtered survivors of a two-argument `cn` call, default string first:
when the caller string has a token of group `g`, the surviving `g`-token is the
caller's last `g`-token. -/
theorem cn_two_filter (d caller : String) (g : String × String)
    (h : (splitTokens caller).filter (fun u => utilityGroup u = some g) ≠ []) :
    (splitTokens (cn [.str d, .str caller])).filter
        (fun u => utilityGroup u = some g)
      = (((splitTokens caller).filter
          (fun u => utilityGroup u = some g)).getLast?).toList := by
  rw [show cn [ClassValue.str d, ClassValue.str caller]
      = compose [ClassValue.str d, ClassValue.str caller] from rfl,
    splitTokens_compose]
  show (resolveGroups (dedupLast
    (flatTokens [ClassValue.str d, ClassValue.str caller]))).filter _ = _
  have hflat : flatTokens [ClassValue.str d, ClassValue.str caller]
      = splitTokens d ++ splitTokens caller := by
    show splitTokens d ++ (splitTokens caller ++ []) = _
    rw [List.append_nil]
  rw [hflat]
  exact caller_group_wins (splitTokens d) caller g h

/-- C9: in every class-merging wrapper (Avatar, Label, DialogOverlay,
SheetContent), the caller-supplied className is composed after the component's
fixed defaults, so when a caller token shares a UtilityGroup with a default
token, the group's surviving token is the caller's, and the conflicting
default is dropped from the rendered class string. -/
theorem wrappers_caller_overrides (caller : String) (g : String × String)
    (side : Side)
    (h : (splitTokens caller).filter (fun u => utilityGroup u = some g) ≠ []) :
    (splitTokens (avatarClassName (.str caller))).filter
          (fun u => utilityGroup u = some g)
        = (((splitTokens caller).filter
            (fun u => utilityGroup u = some g)).getLast?).toList
      ∧ (splitTokens (labelClassName (.str caller))).filter
          (fun u => utilityGroup u = some g)
        = (((splitTokens caller).filter
            (fun u => utilityGroup u = some g)).getLast?).toList
      ∧ (splitTokens (dialogOverlayClassName (.str caller))).filter
          (fun u => utilityGroup u = some g)
        = (((splitTokens caller).filter
            (fun u => utilityGroup u = some g)).getLast?).toList
      ∧ (splitTokens (sheetContentClassName side (.str caller))).filter
          (fun u => utilityGroup u = some g)
        = (((splitTokens caller).filter
            (fun u => utilityGroup u = some g)).getLast?).toList := by
  refine ⟨cn_two_filter _ caller g h, cn_two_filter _ caller g h,
    cn_two_filter _ caller g h, ?_⟩
  show (splitTokens (cn _)).filter _ = _
  rw [show (cn
      [ClassValue.str "bg-background data-[state=open]:animate-in data-[state=closed]:animate-out fixed z-50 flex flex-col gap-4 shadow-lg transition ease-in-out data-[state=closed]:duration-300 data-[state=open]:duration-500",
       condStr (side = .right) "data-[state=closed]:slide-out-to-right data-[state=open]:slide-in-from-right inset-y-0 right-0 h-full w-3/4 border-l sm:max-w-sm",
       condStr (side = .left) "data-[state=closed]:slide-out-to-left data-[state=open]:slide-in-from-left inset-y-0 left-0 h-full w-3/4 border-r sm:max-w-sm",
       condStr (side = .top) "data-[state=closed]:slide-out-to-top data-[state=open]:slide-in-from-top inset-x-0 top-0 h-auto border-b",
       condStr (side = .bottom) "data-[state=closed]:slide-out-to-bottom data-[state=open]:slide-in-from-bottom inset-x-0 bottom-0 h-auto border-t",
       ClassValue.str caller])
      = compose
      [ClassValue.str "bg-background data-[state=open]:animate-in data-[state=closed]:animate-out fixed z-50 flex flex-col gap-4 shadow-lg transition ease-in-out data-[state=closed]:duration-300 data-[state=open]:duration-500",
       condStr (side = .right) "data-[state=closed]:slide-out-to-right data-[state=open]:slide-in-from-right inset-y-0 right-0 h-full w-3/4 border-l sm:max-w-sm",
       condStr (side = .left) "data-[state=closed]:slide-out-to-left data-[state=open]:slide-in-from-left inset-y-0 left-0 h-full w-3/4 border-r sm:max-w-sm",
       condStr (side = .top) "data-[state=closed]:slide-out-to-top data-[state=open]:slide-in-from-top inset-x-0 top-0 h-auto border-b",
       condStr (side = .bottom) "data-[state=closed]:slide-out-to-bottom data-[state=open]:slide-in-from-bottom inset-x-0 bottom-0 h-auto border-t",
       ClassValue.str caller] from rfl, splitTokens_compose]
  show (resolveGroups (dedupLast (flatTokens _))).filter _ = _
  have hflat :
      flatTokens
        [ClassValue.str "bg-background data-[state=open]:animate-in data-[state=closed]:animate-out fixed z-50 flex flex-col gap-4 shadow-lg transition ease-in-out data-[state=closed]:duration-300 data-[state=open]:duration-500",
         condStr (side = .right) "data-[state=closed]:slide-out-to-right data-[state=open]:slide-in-from-right inset-y-0 right-0 h-full w-3/4 border-l sm:max-w-sm",
         condStr (side = .left) "data-[state=closed]:slide-out-to-left data-[state=open]:slide-in-from-left inset-y-0 left-0 h-full w-3/4 border-r sm:max-w-sm",
         condStr (side = .top) "data-[state=closed]:slide-out-to-top data-[state=open]:slide-in-from-top inset-x-0 top-0 h-auto border-b",
         condStr (side = .bottom) "data-[state=closed]:slide-out-to-bottom data-[state=open]:slide-in-from-bottom inset-x-0 bottom-0 h-auto border-t",
         ClassValue.str caller]
      = (splitTokens "bg-background data-[state=open]:animate-in data-[state=closed]:animate-out fixed z-50 flex flex-col gap-4 shadow-lg transition ease-in-out data-[state=closed]:duration-300 data-[state=open]:duration-500"
          ++ (flatten (condStr (side = .right) "data-[state=closed]:slide-out-to-right data-[state=open]:slide-in-from-right inset-y-0 right-0 h-full w-3/4 border-l sm:max-w-sm")
          ++ (flatten (condStr (side = .left) "data-[state=closed]:slide-out-to-left data-[state=open]:slide-in-from-left inset-y-0 left-0 h-full w-3/4 border-r sm:max-w-sm")
          ++ (flatten (condStr (side = .top) "data-[state=closed]:slide-out-to-top data-[state=open]:slide-in-from-top inset-x-0 top-0 h-auto border-b")
          ++ flatten (condStr (side = .bottom) "data-[state=closed]:slide-out-to-bottom data-[state=open]:slide-in-from-bottom inset-x-0 bottom-0 h-auto border-t")))))
          ++ splitTokens caller := by
    show _ ++ (_ ++ (_ ++ (_ ++ (_ ++ (splitTokens caller ++ []))))) = _
    rw [List.append_nil]
    simp [List.append_assoc, flatten_str]
  rw [hflat]
  exact caller_group_wins _ caller g h

theorem wrappers_caller_overrides_witness :
    ((splitTokens "size-10").filter
        (fun u => utilityGroup u = some ("", "size")) ≠ [])
      ∧ (splitTokens (avatarClassName (.str "size-10"))).filter
            (fun u => utilityGroup u = some ("", "size"))
          = (((splitTokens "size-10").filter
              (fun u => utilityGroup u = some ("", "size"))).getLast?).toList :=
  ⟨by decide,
    (wrappers_caller_overrides "size-10" ("", "size") .right (by decide)).1⟩

/-- Integer inputs behave like other tokens: a nonzero integer contributes its
decimal string form as an output token (it has no utility group, so it always
survives), and the integer 0 is falsy and contributes nothing.  This covers
only the integer fragment of the program's numeric domain. -/
theorem integer_inputs_pass_through (pre post : List ClassValue) (n : Int) :
    (n ≠ 0 → intDecimal n ∈ composeTokens (pre ++ .num n :: post))
      ∧ flatten (.num 0) = [] := by
  refine ⟨?_, by decide⟩
  intro hn
  have hflat : intDecimal n ∈ flatTokens (pre ++ ClassValue.num n :: post) := by
    rw [flatTokens_append]
    refine List.mem_append.mpr (Or.inr ?_)
    show intDecimal n ∈ flatten (ClassValue.num n) ++ flatTokens post
    have hfl : flatten (ClassValue.num n) = [intDecimal n] := by
      show (if n = 0 then [] else [intDecimal n]) = [intDecimal n]
      rw [if_neg hn]
    rw [hfl]
    simp
  exact (mem_resolveGroups_of_none (utilityGroup_intDecimal n) _).mpr
    (mem_dedupLast.mpr hflat)

end ClassComposer
